import Mathlib

/-!
Verification of `trunk/src/cluster.py` (hierarchical clustering module).

Doubles are modelled as exact rationals (`ℚ`): every operation the claims
touch (comparison, equality, copying, counting, division) is exact on the
inputs considered; floating rounding, signed zeros and NaN are outside the
model.  Fallible Python functions are embedded as `Except PyErr _`; each
`PyErr` constructor is one `raise` site (or the `ValueError` numpy raises
when an array with more than one element is used as a truth value).
The C extension `_cluster_wrap` is not part of the sources; the wrappers a
claim depends on are modelled from the spec and marked as such, the others
are recorded abstractly as `PdistRes.call` tags.
-/

namespace Cluster

/-- Triangular numbers, used to evaluate the `i*(i+1)/2` term of the
canonical condensed index without natural division. -/
def tri : ℕ → ℕ
  | 0 => 0
  | n + 1 => tri n + (n + 1)

theorem two_tri (n : ℕ) : 2 * tri n = n * (n + 1) := by
  induction n with
  | zero => rfl
  | succ k ih =>
    calc 2 * tri (k + 1) = 2 * tri k + 2 * (k + 1) := by rw [tri]; ring
    _ = k * (k + 1) + 2 * (k + 1) := by rw [ih]
    _ = (k + 1) * (k + 1 + 1) := by ring

theorem tri_eq_div (i : ℕ) : i * (i + 1) / 2 = tri i := by
  rw [← two_tri]
  exact Nat.mul_div_cancel_left _ (by norm_num)

/-- Canonical condensed index `k(i,j) = i*d - i*(i+1)/2 + (j - i - 1)`
(spec section 3; `pdist` lines 443-447 produce exactly this ordering). -/
def kIdx (d i j : ℕ) : ℕ := i * d - i * (i + 1) / 2 + (j - (i + 1))

/-- Start of row `i` inside the condensed vector. -/
def kStart (d i : ℕ) : ℕ := i * d - tri i

theorem kIdx_eq (d i j : ℕ) : kIdx d i j = kStart d i + (j - (i + 1)) := by
  unfold kIdx kStart
  rw [tri_eq_div]

theorem tri_le_mul {i d : ℕ} (h : i ≤ d) : tri i ≤ i * d := by
  induction i with
  | zero => simp [tri]
  | succ k ih =>
    have hk : k ≤ d := by omega
    have h1 : tri k ≤ k * d := ih hk
    have h2 : (k + 1) * d = k * d + d := by ring
    have h3 : tri (k + 1) = tri k + (k + 1) := rfl
    omega

theorem kStart_succ {d i : ℕ} (h : i + 1 ≤ d) :
    kStart d (i + 1) = kStart d i + (d - (i + 1)) := by
  unfold kStart
  have h1 : (i + 1) * d = i * d + d := by ring
  have h2 : tri (i + 1) = tri i + (i + 1) := rfl
  have h3 : tri i ≤ i * d := tri_le_mul (by omega)
  omega

theorem kStart_mono {d : ℕ} : ∀ {a b : ℕ}, a ≤ b → b ≤ d → kStart d a ≤ kStart d b := by
  intro a b hab hbd
  induction b with
  | zero =>
    have : a = 0 := by omega
    subst this
    exact le_refl _
  | succ k ih =>
    rcases Nat.lt_or_ge a (k + 1) with hlt | hge
    · have h1 : kStart d a ≤ kStart d k := ih (by omega) (by omega)
      have h2 : kStart d (k + 1) = kStart d k + (d - (k + 1)) := kStart_succ hbd
      omega
    · have : a = k + 1 := by omega
      subst this
      exact le_refl _

theorem kStart_zero (d : ℕ) : kStart d 0 = 0 := by simp [kStart, tri]

theorem kStart_last (d : ℕ) : kStart d d = d * (d - 1) / 2 := by
  cases d with
  | zero => rfl
  | succ e =>
    have h1 : 2 * tri e = e * (e + 1) := two_tri e
    have h2 : (e + 1) * e / 2 = tri e := by
      rw [Nat.mul_comm]; exact tri_eq_div e |>.symm ▸ (by rw [← tri_eq_div])
    have h3 : tri (e + 1) = tri e + (e + 1) := rfl
    have h4 : (e + 1) * (e + 1) = e * (e + 1) + (e + 1) := by ring
    unfold kStart
    have h5 : (e + 1) * (e + 1 - 1) / 2 = (e + 1) * e / 2 := by norm_num
    rw [h5, h2, h3]
    omega

/-- Pairs `(i, j)` produced by the inner loop `for j in xrange(i+1, m)`. -/
def rowPairs (d i : ℕ) : List (ℕ × ℕ) :=
  (List.range' (i + 1) (d - (i + 1))).map (fun j => (i, j))

/-- The canonical pair enumeration: `i` ascending outer, `j` ascending inner
(`pdist` lines 444-445). -/
def pairList (d : ℕ) : List (ℕ × ℕ) :=
  (List.range d).flatMap (fun i => rowPairs d i)

theorem rowPairs_map_k (d i : ℕ) :
    (rowPairs d i).map (fun p => kIdx d p.1 p.2) =
      List.range' (kStart d i) (d - (i + 1)) := by
  unfold rowPairs
  rw [List.range'_eq_map_range, List.map_map, List.map_map, List.range'_eq_map_range]
  apply List.map_congr_left
  intro t _
  simp only [Function.comp]
  rw [kIdx_eq]
  omega

theorem flat_map_k (d : ℕ) :
    ∀ m a, a + m = d →
      (((List.range' a m).flatMap (fun i => rowPairs d i)).map
          (fun p => kIdx d p.1 p.2)) =
        List.range' (kStart d a) (kStart d d - kStart d a) := by
  intro m
  induction m with
  | zero =>
    intro a h
    have : a = d := by omega
    subst this
    simp
  | succ k ih =>
    intro a h
    rw [List.range'_succ, List.flatMap_cons, List.map_append, rowPairs_map_k,
      ih (a + 1) (by omega)]
    have h1 : kStart d (a + 1) = kStart d a + (d - (a + 1)) := kStart_succ (by omega)
    have h2 : kStart d (a + 1) ≤ kStart d d := kStart_mono (by omega) (le_refl d)
    rw [h1]
    have := List.range'_append (kStart d a) (d - (a + 1))
      (kStart d d - (kStart d a + (d - (a + 1)))) 1
    simp only [one_mul] at this
    rw [this]
    congr 1
    omega

theorem pairList_map_k (d : ℕ) :
    (pairList d).map (fun p => kIdx d p.1 p.2) = List.range (d * (d - 1) / 2) := by
  unfold pairList
  rw [List.range_eq_range', flat_map_k d d 0 (by omega), kStart_zero, kStart_last]
  simp [List.range_eq_range']

theorem pairList_length (d : ℕ) : (pairList d).length = d * (d - 1) / 2 := by
  have := congrArg List.length (pairList_map_k d)
  simpa using this

theorem mem_pairList {d : ℕ} {p : ℕ × ℕ} :
    p ∈ pairList d ↔ p.1 < p.2 ∧ p.2 < d := by
  unfold pairList rowPairs
  constructor
  · intro h
    obtain ⟨i, hi, hp⟩ := List.mem_flatMap.mp h
    obtain ⟨j, hj, rfl⟩ := List.mem_map.mp hp
    have hj' := List.mem_range'_1.mp hj
    exact ⟨by omega, by omega⟩
  · intro ⟨h1, h2⟩
    apply List.mem_flatMap.mpr
    refine ⟨p.1, List.mem_range.mpr (by omega), ?_⟩
    apply List.mem_map.mpr
    exact ⟨p.2, List.mem_range'_1.mpr (by omega), rfl⟩

theorem pairList_nodup (d : ℕ) : (pairList d).Nodup :=
  List.Nodup.of_map _ (by rw [pairList_map_k]; exact List.nodup_range _)

theorem kIdx_lt {d i j : ℕ} (hij : i < j) (hj : j < d) :
    kIdx d i j < d * (d - 1) / 2 := by
  rw [kIdx_eq]
  have h1 : kStart d (i + 1) = kStart d i + (d - (i + 1)) := kStart_succ (by omega)
  have h2 : kStart d (i + 1) ≤ kStart d d := kStart_mono (by omega) (le_refl d)
  have h3 := kStart_last d
  omega

theorem pairList_get {d i j : ℕ} (hij : i < j) (hj : j < d) :
    (pairList d).get? (kIdx d i j) = some (i, j) := by
  have hmem : (i, j) ∈ pairList d := mem_pairList.mpr ⟨hij, hj⟩
  obtain ⟨t, hget⟩ := List.mem_iff_get?.mp hmem
  have ht : t < (pairList d).length := by
    by_contra hc
    rw [List.get?_eq_none.mpr (by omega)] at hget
    exact Option.noConfusion hget
  have hmap : ((pairList d).map (fun p => kIdx d p.1 p.2)).get? t =
      some (kIdx d i j) := by
    rw [List.get?_map, hget]
    rfl
  rw [pairList_map_k] at hmap
  have hlen : t < d * (d - 1) / 2 := by
    have := pairList_length d
    omega
  rw [List.get?_range hlen] at hmap
  have h5 : t = kIdx d i j := Option.some.inj hmap
  rw [← h5]
  exact hget

theorem map_getD_range (v : List ℚ) :
    (List.range v.length).map (fun t => v.getD t 0) = v := by
  induction v with
  | nil => rfl
  | cons x xs ih =>
    rw [List.length_cons, List.range_succ_eq_map, List.map_cons, List.map_map]
    have h : (List.range xs.length).map ((fun t => (x :: xs).getD t 0) ∘ Nat.succ)
        = (List.range xs.length).map (fun t => xs.getD t 0) :=
      List.map_congr_left (fun a _ => rfl)
    rw [h, ih]
    rfl

/-- `int(scipy.ceil(scipy.sqrt(m)))` on a nonnegative integer argument:
the least `k` with `k*k ≥ m` (exact for the integer-valued inputs that
reach it; float rounding cannot change it at the magnitudes considered). -/
def ceilSqrt (m : ℕ) : ℕ := if m = 0 then 0 else Nat.sqrt (m - 1) + 1

theorem ceilSqrt_mul_pred {d : ℕ} (hd : 2 ≤ d) : ceilSqrt (d * (d - 1)) = d := by
  obtain ⟨e, rfl⟩ : ∃ e, d = e + 2 := ⟨d - 2, by omega⟩
  have h0 : e + 2 - 1 = e + 1 := by omega
  have hx : (e + 2) * (e + 2 - 1) = e * e + 3 * e + 2 := by rw [h0]; ring
  unfold ceilSqrt
  rw [hx]
  rw [if_neg (by omega)]
  have hs : Nat.sqrt (e * e + 3 * e + 2 - 1) = e + 1 := by
    apply le_antisymm
    · have : Nat.sqrt (e * e + 3 * e + 2 - 1) < e + 2 := by
        rw [Nat.sqrt_lt]
        have : (e + 2) * (e + 2) = e * e + 4 * e + 4 := by ring
        omega
      omega
    · rw [Nat.le_sqrt]
      have : (e + 1) * (e + 1) = e * e + 2 * e + 1 := by ring
      omega
  omega

theorem two_mul_binom (d : ℕ) : 2 * (d * (d - 1) / 2) = d * (d - 1) := by
  cases d with
  | zero => rfl
  | succ e =>
    have h0 : e + 1 - 1 = e := by omega
    have h : (e + 1) * (e + 1 - 1) = e * (e + 1) := by rw [h0]; ring
    rw [h, ← two_tri, Nat.mul_div_cancel_left _ (by norm_num : 0 < 2)]

/-- Decidable equality for `Except`, so concrete runs of the embedded
functions can be checked by `decide`. -/
instance exceptDecEq {ε α : Type} [DecidableEq ε] [DecidableEq α] :
    DecidableEq (Except ε α) := fun x y =>
  match x, y with
  | .ok a, .ok b =>
    if h : a = b then .isTrue (by rw [h])
    else .isFalse (by intro hc; injection hc; exact h ‹_›)
  | .error a, .error b =>
    if h : a = b then .isTrue (by rw [h])
    else .isFalse (by intro hc; injection hc; exact h ‹_›)
  | .ok _, .error _ => .isFalse (by intro hc; exact Except.noConfusion hc)
  | .error _, .ok _ => .isFalse (by intro hc; exact Except.noConfusion hc)

/-- ASCII lowercasing of one character, as Python `str.lower()` does on the
ASCII metric/force names used here. -/
def pyCharLower (c : Char) : Char :=
  if c.isUpper then Char.ofNat (c.toNat + 32) else c

/-- Python `s.lower()` (ASCII range; all names compared in `cluster.py`
are ASCII). -/
def pyLower (s : String) : String := String.mk (s.data.map pyCharLower)

/-- Errors: one constructor per `raise` site of `cluster.py` (plus the
`ValueError` numpy itself raises when an array with more than one element
is used as a truth value, as happens on lines 223, 230 and 233 of
`totree`). -/
inductive PyErr where
  | notArray2D
  | binomial
  | vectorMethodInvalid
  | invalidMethod
  | methodNeedsEuclidean
  | unknownMetric
  | badMetricType
  | tomatrixOnMatrix
  | notSquare
  | notSymmetric
  | nonzeroDiagonal
  | badRank
  | corruptUnique
  | idxOutOfBounds
  | idxNegative
  | negDist
  | negCount
  | fwdRef
  | badCount
  | keyError
  | ambiguousTruth
  | sizeMismatchY
  deriving DecidableEq, Repr

/-- A numpy array of doubles, 1-D or 2-D (the only ranks the claims use). -/
inductive PyArr where
  | v1 (v : List ℚ)
  | m2 (m : List (List ℚ))
  deriving DecidableEq, Repr

/-- Entry `M[i][j]` of a row-major matrix. -/
def matGet (M : List (List ℚ)) (i j : ℕ) : ℚ := (M.getD i []).getD j 0

/-- A `d` by `d` matrix given entrywise. -/
def mkMat (d : ℕ) (g : ℕ → ℕ → ℚ) : List (List ℚ) :=
  (List.range d).map (fun i => (List.range d).map (g i))

theorem matGet_mkMat {d i j : ℕ} (g : ℕ → ℕ → ℚ) (hi : i < d) (hj : j < d) :
    matGet (mkMat d g) i j = g i j := by
  have h1 : (mkMat d g).getD i [] = (List.range d).map (g i) := by
    unfold mkMat
    rw [List.getD_eq_getElem _ _ (by simpa using hi)]
    simp
  unfold matGet
  rw [h1, List.getD_eq_getElem _ _ (by simpa using hj)]
  simp

theorem mkMat_length (d : ℕ) (g : ℕ → ℕ → ℚ) : (mkMat d g).length = d := by
  simp [mkMat]

/-- `shape[1]` of a 2-D array (rows are rectangular in numpy, so the first
row's length is the column count). -/
def shape1 (M : List (List ℚ)) : ℕ := (M.headD []).length

/-- Modelled from the spec: the C function
`_cluster_wrap.to_squareform_from_vector_wrap(M, X)` is not in the sources.
Per the spec the composite vector-to-matrix conversion places `v[k(i,j)]`
at `[i,j]` and `[j,i]`; since the Python caller symmetrizes afterwards with
`M = M + M.transpose()` (line 313), the wrapper itself fills only the upper
triangle of the zero-initialized `M`. -/
def to_squareform_from_vector (d : ℕ) (v : List ℚ) : List (List ℚ) :=
  mkMat d (fun i j => if i < j then v.getD (kIdx d i j) 0 else 0)

/-- `M = M + M.transpose()` for a `d` by `d` matrix (line 313). -/
def addTranspose (d : ℕ) (M : List (List ℚ)) : List (List ℚ) :=
  mkMat d (fun i j => matGet M i j + matGet M j i)

/-- Modelled from the spec: the C function
`_cluster_wrap.to_vector_from_squareform_wrap(X, v)` is not in the sources.
Per the spec it extracts the upper-triangular entries in canonical order. -/
def to_vector_from_squareform (d : ℕ) (M : List (List ℚ)) : List ℚ :=
  (pairList d).map (fun p => matGet M p.1 p.2)

/-- All `(i,j)` index pairs of a `d` by `d` matrix, row-major, used to model
the elementwise comparison `X == X.transpose()`. -/
def allIdx (d : ℕ) : List (ℕ × ℕ) :=
  (List.range d).flatMap (fun i => (List.range d).map (fun j => (i, j)))

theorem allIdx_length (d : ℕ) : (allIdx d).length = d * d := by
  unfold allIdx
  rw [List.length_flatMap]
  have h : (List.range d).map (List.length ∘ fun i =>
      (List.range d).map (fun j => (i, j))) =
      (List.range d).map (fun _ => d) := by
    apply List.map_congr_left
    intro a _
    simp [Function.comp]
  rw [h]
  simp [List.sum_replicate, Nat.mul_comm]

theorem mem_allIdx {d : ℕ} {p : ℕ × ℕ} : p ∈ allIdx d ↔ p.1 < d ∧ p.2 < d := by
  unfold allIdx
  constructor
  · intro h
    obtain ⟨i, hi, hp⟩ := List.mem_flatMap.mp h
    obtain ⟨j, hj, rfl⟩ := List.mem_map.mp hp
    exact ⟨by simpa using hi, by simpa using hj⟩
  · intro ⟨h1, h2⟩
    exact List.mem_flatMap.mpr ⟨p.1, List.mem_range.mpr h1,
      List.mem_map.mpr ⟨p.2, List.mem_range.mpr h2, rfl⟩⟩

/-- `squareform(X, force, checks)` (lines 256-338).  The dispatch, shape,
symmetry and diagonal checks follow the Python; the two `_cluster_wrap`
calls are the spec-modelled fill/extract above. -/
def squareform (X : PyArr) (force : String) (checks : Bool) : Except PyErr PyArr :=
  match X with
  | .v1 v =>
    if force ≠ "tomatrix" then
      -- lines 295-314: vector to matrix
      let d := ceilSqrt (2 * v.length)
      if d * (d - 1) / 2 ≠ v.length then .error .binomial
      else .ok (.m2 (addTranspose d (to_squareform_from_vector d v)))
    else
      -- a 1-D input with force='tomatrix' falls through to the final
      -- `elif len(s) != 2 and force.lower() == 'tomatrix'` raise (line 335)
      .error .badRank
  | .m2 M =>
    if pyLower force = "tomatrix" then .error .tomatrixOnMatrix   -- line 315
    else if pyLower force ≠ "tovector" then
      -- lines 317-334: matrix to vector
      let d := M.length
      if d ≠ shape1 M then .error .notSquare
      else if checks &&
          ((allIdx d).countP
            (fun p => matGet M p.1 p.2 == matGet M p.2 p.1) != d * d) then
        .error .notSymmetric
      else if checks && ((List.range d).any (fun i => matGet M i i != 0)) then
        .error .nonzeroDiagonal
      else .ok (.v1 (to_vector_from_squareform d M))
    else
      -- 2-D input with force='tovector' reaches the final else (line 338)
      .error .badRank

theorem tvfs_length (d : ℕ) (M : List (List ℚ)) :
    (to_vector_from_squareform d M).length = d * (d - 1) / 2 := by
  unfold to_vector_from_squareform
  rw [List.length_map, pairList_length]

theorem tvfs_getD {d i j : ℕ} (M : List (List ℚ)) (hij : i < j) (hj : j < d) :
    (to_vector_from_squareform d M).getD (kIdx d i j) 0 = matGet M i j := by
  unfold to_vector_from_squareform
  have h2 : ((pairList d).map (fun p => matGet M p.1 p.2)).get? (kIdx d i j)
      = some (matGet M i j) := by
    rw [List.get?_map, pairList_get hij hj]
    rfl
  rw [List.getD_eq_getElem?_getD, ← List.get?_eq_getElem?, h2]
  rfl

/-- Entry `(i,j)` of the symmetrized filled matrix equals the condensed
entry for the pair, its mirror, or `0` on the diagonal. -/
theorem symFill_entry {d i j : ℕ} (v : List ℚ) (hi : i < d) (hj : j < d) :
    matGet (addTranspose d (to_squareform_from_vector d v)) i j =
      if i < j then v.getD (kIdx d i j) 0
      else if j < i then v.getD (kIdx d j i) 0 else 0 := by
  unfold addTranspose to_squareform_from_vector
  rw [matGet_mkMat _ hi hj, matGet_mkMat _ hi hj, matGet_mkMat _ hj hi]
  rcases Nat.lt_trichotomy i j with h | h | h
  · simp [h, Nat.lt_asymm h]
  · subst h
    simp
  · simp [h, Nat.lt_asymm h]

theorem roundtrip_vec {d : ℕ} (v : List ℚ) (hv : v.length = d * (d - 1) / 2) :
    to_vector_from_squareform d
      (addTranspose d (to_squareform_from_vector d v)) = v := by
  unfold to_vector_from_squareform
  have h1 : (pairList d).map
      (fun p => matGet (addTranspose d (to_squareform_from_vector d v)) p.1 p.2) =
      (pairList d).map (fun p => v.getD (kIdx d p.1 p.2) 0) := by
    apply List.map_congr_left
    intro p hp
    obtain ⟨hij, hjd⟩ := mem_pairList.mp hp
    rw [symFill_entry v (by omega) hjd, if_pos hij]
  rw [h1]
  have h2 : (pairList d).map (fun p => v.getD (kIdx d p.1 p.2) 0) =
      ((pairList d).map (fun p => kIdx d p.1 p.2)).map (fun t => v.getD t 0) := by
    rw [List.map_map]
    rfl
  rw [h2, pairList_map_k, ← hv, map_getD_range]

theorem shape1_mkMat {d : ℕ} (g : ℕ → ℕ → ℚ) (hd : 0 < d) :
    shape1 (mkMat d g) = d := by
  unfold shape1 mkMat
  obtain ⟨e, rfl⟩ : ∃ e, d = e + 1 := ⟨d - 1, by omega⟩
  rw [List.range_succ_eq_map]
  simp

theorem mkMat_congr {d : ℕ} {F G : ℕ → ℕ → ℚ}
    (h : ∀ i j, i < d → j < d → F i j = G i j) : mkMat d F = mkMat d G := by
  unfold mkMat
  apply List.map_congr_left
  intro i hi
  apply List.map_congr_left
  intro j hj
  exact h i j (List.mem_range.mp hi) (List.mem_range.mp hj)

/-- A rectangular square matrix is determined by its `matGet` entries. -/
theorem eq_mkMat_of_rect (M : List (List ℚ))
    (hrow : ∀ r ∈ M, r.length = M.length) :
    M = mkMat M.length (fun i j => matGet M i j) := by
  apply List.ext_getElem
  · simp [mkMat]
  · intro n h1 h2
    have hrowlen : M[n].length = M.length := hrow _ (List.getElem_mem h1)
    apply List.ext_getElem
    · simp only [mkMat, List.getElem_map, List.getElem_range, List.length_map,
        List.length_range]
      exact hrowlen
    · intro j hj1 hj2
      simp only [mkMat, List.getElem_map, List.getElem_range]
      unfold matGet
      rw [List.getD_eq_getElem _ _ h1, List.getD_eq_getElem]

theorem roundtrip_mat (M : List (List ℚ))
    (hrow : ∀ r ∈ M, r.length = M.length)
    (hsym : ∀ i j, i < M.length → j < M.length → matGet M i j = matGet M j i)
    (hdiag : ∀ i, i < M.length → matGet M i i = 0) :
    addTranspose M.length
      (to_squareform_from_vector M.length (to_vector_from_squareform M.length M))
      = M := by
  have key : addTranspose M.length
      (to_squareform_from_vector M.length (to_vector_from_squareform M.length M))
      = mkMat M.length (fun i j => matGet M i j) := by
    unfold addTranspose
    apply mkMat_congr
    intro i j hi hj
    have h1 := symFill_entry (d := M.length) (to_vector_from_squareform M.length M) hi hj
    unfold addTranspose at h1
    rw [matGet_mkMat _ hi hj] at h1
    rw [h1]
    rcases Nat.lt_trichotomy i j with h | h | h
    · rw [if_pos h, tvfs_getD M h hj]
    · subst h
      rw [if_neg (lt_irrefl i), if_neg (lt_irrefl i)]
      exact (hdiag i hi).symm
    · rw [if_neg (by omega), if_pos h, tvfs_getD M h hi]
      exact hsym j i hj hi
  rw [key, ← eq_mkMat_of_rect M hrow]

theorem shape1_of_rect (M : List (List ℚ))
    (hrow : ∀ r ∈ M, r.length = M.length) : shape1 M = M.length := by
  cases M with
  | nil => rfl
  | cons r t => exact hrow r (List.mem_cons_self r t)

theorem addTranspose_length (d : ℕ) (X : List (List ℚ)) :
    (addTranspose d X).length = d := by
  unfold addTranspose
  exact mkMat_length _ _

theorem squareform_vec_step {d : ℕ} (v : List ℚ) (hd2 : 2 ≤ d)
    (hv : v.length = d * (d - 1) / 2) :
    squareform (.v1 v) "no" true =
      .ok (.m2 (addTranspose d (to_squareform_from_vector d v))) := by
  have hceil : ceilSqrt (2 * v.length) = d := by
    rw [hv, two_mul_binom]
    exact ceilSqrt_mul_pred hd2
  simp only [squareform]
  rw [if_pos (by decide : ¬ ("no" : String) = "tomatrix")]
  rw [hceil, if_neg (by omega : ¬ d * (d - 1) / 2 ≠ v.length)]

theorem squareform_mat_step (M : List (List ℚ))
    (hrow : ∀ r ∈ M, r.length = M.length)
    (hsym : ∀ i j, i < M.length → j < M.length → matGet M i j = matGet M j i)
    (hdiag : ∀ i, i < M.length → matGet M i i = 0) :
    squareform (.m2 M) "no" true =
      .ok (.v1 (to_vector_from_squareform M.length M)) := by
  simp only [squareform]
  rw [if_neg (by decide : ¬ pyLower "no" = "tomatrix")]
  rw [if_pos (by decide : pyLower "no" ≠ "tovector")]
  rw [if_neg (by rw [shape1_of_rect M hrow]; omega : ¬ M.length ≠ shape1 M)]
  have hcount : (allIdx M.length).countP
      (fun p => matGet M p.1 p.2 == matGet M p.2 p.1) = M.length * M.length := by
    rw [← allIdx_length M.length]
    apply List.countP_eq_length.mpr
    intro p hp
    obtain ⟨h1, h2⟩ := mem_allIdx.mp hp
    exact beq_iff_eq.mpr (hsym p.1 p.2 h1 h2)
  rw [hcount]
  have hany : (List.range M.length).any (fun i => matGet M i i != 0) = false := by
    apply List.any_eq_false.mpr
    intro i hi
    simp only [bne_iff_ne, ne_eq, Decidable.not_not]
    exact hdiag i (List.mem_range.mp hi)
  rw [hany]
  simp

theorem squareform_roundtrip_from_vec {d : ℕ} (v : List ℚ) (hd2 : 2 ≤ d)
    (hv : v.length = d * (d - 1) / 2) :
    (squareform (.v1 v) "no" true).bind (fun Y => squareform Y "no" true)
      = .ok (.v1 v) := by
  rw [squareform_vec_step v hd2 hv]
  show squareform (.m2 (addTranspose d (to_squareform_from_vector d v))) "no" true
      = .ok (.v1 v)
  have hrow : ∀ r ∈ addTranspose d (to_squareform_from_vector d v),
      r.length = (addTranspose d (to_squareform_from_vector d v)).length := by
    intro r hr
    rw [addTranspose_length]
    unfold addTranspose mkMat at hr
    obtain ⟨i, _, rfl⟩ := List.mem_map.mp hr
    simp
  have hlen := addTranspose_length d (to_squareform_from_vector d v)
  have hsym : ∀ i j, i < (addTranspose d (to_squareform_from_vector d v)).length →
      j < (addTranspose d (to_squareform_from_vector d v)).length →
      matGet (addTranspose d (to_squareform_from_vector d v)) i j =
      matGet (addTranspose d (to_squareform_from_vector d v)) j i := by
    intro i j hi hj
    rw [hlen] at hi hj
    unfold addTranspose
    rw [matGet_mkMat _ hi hj, matGet_mkMat _ hj hi]
    ring
  have hdiag : ∀ i, i < (addTranspose d (to_squareform_from_vector d v)).length →
      matGet (addTranspose d (to_squareform_from_vector d v)) i i = 0 := by
    intro i hi
    rw [hlen] at hi
    rw [symFill_entry v hi hi]
    simp
  rw [squareform_mat_step _ hrow hsym hdiag, hlen, roundtrip_vec v hv]

theorem squareform_roundtrip_from_mat (M : List (List ℚ)) (hd1 : M.length ≠ 1)
    (hrow : ∀ r ∈ M, r.length = M.length)
    (hsym : ∀ i j, i < M.length → j < M.length → matGet M i j = matGet M j i)
    (hdiag : ∀ i, i < M.length → matGet M i i = 0) :
    (squareform (.m2 M) "no" true).bind (fun Y => squareform Y "no" true)
      = .ok (.m2 M) := by
  rw [squareform_mat_step M hrow hsym hdiag]
  show squareform (.v1 (to_vector_from_squareform M.length M)) "no" true
      = .ok (.m2 M)
  rcases Nat.eq_zero_or_pos M.length with h0 | hpos
  · have hM : M = [] := List.length_eq_zero.mp h0
    subst hM
    rfl
  · have hd2 : 2 ≤ M.length := by omega
    rw [squareform_vec_step (d := M.length) _ hd2 (tvfs_length _ M)]
    rw [roundtrip_mat M hrow hsym hdiag]

/-- Tags for computations performed outside this model: `_cluster_wrap` C
functions absent from the sources, and the in-Python branches whose values
involve irrational square roots (cosine, the mahalanobis/test lambdas).
No claim depends on the values those branches produce; recording which one
is invoked keeps the dispatch control flow faithful. -/
inductive WrapTag where
  | euclideanWrap
  | cityBlockWrap
  | chebyshevWrap
  | minkowskiWrap
  | seuclideanWrap
  | cosineOldWrap
  | cosinePy
  | correlationWrap
  | stubMahalanobisPy
  | testEuclidean
  | testSeuclidean
  | mahalanobisPy
  | testCityblock
  | testMinkowski
  | testCosine
  | testCorrelation
  | testHamming
  | testJaccard
  | testChebyshev
  deriving DecidableEq, Repr

/-- A `pdist` result: a condensed vector computed in the model, or the
record of an externally computed branch. -/
inductive PdistRes where
  | vec (v : List ℚ)
  | call (t : WrapTag)
  deriving DecidableEq, Repr

/-- The `metric` argument: a name or a caller-supplied binary function. -/
inductive PyMetric where
  | str (s : String)
  | func (f : List ℚ → List ℚ → ℚ)

/-- The custom-function path of `pdist` (lines 443-447): `f` applied to
each unordered pair of rows, `i` ascending outer and `j` ascending inner,
results stored consecutively. -/
def pdistF (X : List (List ℚ)) (f : List ℚ → List ℚ → ℚ) : List ℚ :=
  (pairList X.length).map (fun p => f (X.getD p.1 []) (X.getD p.2 []))

/-- Normalized Hamming distance of two rows: the fraction of disagreeing
components. -/
def hammingRow (u v : List ℚ) : ℚ :=
  (((u.zip v).countP (fun q => q.1 != q.2) : ℚ)) / (u.length : ℚ)

/-- Modelled from the spec: the C function
`_cluster_wrap.pdist_hamming_wrap(X, dm)` is not in the sources; per the
spec, hamming is the mean fraction of disagreeing components, over the
canonical pair ordering. -/
def pdist_hamming (X : List (List ℚ)) : List ℚ :=
  (pairList X.length).map (fun p => hammingRow (X.getD p.1 []) (X.getD p.2 []))

/-- Modelled from the spec (for comparison only): the jaccard distance the
spec prescribes, `|{k : u_k ≠ v_k}| / |{k : u_k ≠ 0 or v_k ≠ 0}|`, defined
as `0` when the denominator is `0`. -/
def specJaccard (u v : List ℚ) : ℚ :=
  let den := (u.zip v).countP (fun q => (q.1 != 0) || (q.2 != 0))
  if den = 0 then 0
  else (((u.zip v).countP (fun q => q.1 != q.2) : ℚ)) / (den : ℚ)

/-- `pdist(X, metric, p)` (lines 340-550).  1-D input fails the rank check
(line 434); a function metric runs the pure-Python pair loop; a string
metric is lowercased and dispatched through the `elif` chain in source
order.  Note the `hamming` and `jaccard` branches call the same C wrapper
`pdist_hamming_wrap` (lines 458 and 465); the bool-dtype sub-branches are
outside this all-double model. -/
def pdist (X : PyArr) (metric : PyMetric) (p : ℚ) : Except PyErr PdistRes :=
  match X with
  | .v1 _ => .error .notArray2D
  | .m2 rows =>
    match metric with
    | .func f => .ok (.vec (pdistF rows f))
    | .str s =>
      let mstr := pyLower s
      if mstr ∈ ["euclidean", "euclid", "eu", "e"] then .ok (.call .euclideanWrap)
      else if mstr ∈ ["cityblock", "cblock", "cb", "c"] then .ok (.call .cityBlockWrap)
      else if mstr ∈ ["hamming", "hamm", "ha", "h"] then .ok (.vec (pdist_hamming rows))
      else if mstr ∈ ["jaccard", "jacc", "ja", "j"] then .ok (.vec (pdist_hamming rows))
      else if mstr ∈ ["chebyshev", "cheby", "cheb", "ch"] then .ok (.call .chebyshevWrap)
      else if mstr ∈ ["minkowski", "mi", "m"] then .ok (.call .minkowskiWrap)
      else if mstr ∈ ["seuclidean", "se", "s"] then .ok (.call .seuclideanWrap)
      else if mstr ∈ ["cosine_old", "cos_old"] then .ok (.call .cosineOldWrap)
      else if mstr ∈ ["cosine", "cos"] then .ok (.call .cosinePy)
      else if mstr ∈ ["correlation", "co"] then .ok (.call .correlationWrap)
      else if mstr ∈ ["stub_mahalanobis"] then .ok (.call .stubMahalanobisPy)
      else if s = "test_euclidean" then .ok (.call .testEuclidean)
      else if s = "test_seuclidean" then .ok (.call .testSeuclidean)
      else if s = "mahalanobis" then .ok (.call .mahalanobisPy)
      else if s = "test_cityblock" then .ok (.call .testCityblock)
      else if s = "test_minkowski" then .ok (.call .testMinkowski)
      else if s = "test_cosine" then .ok (.call .testCosine)
      else if s = "test_correlation" then .ok (.call .testCorrelation)
      else if s = "test_hamming" then .ok (.call .testHamming)
      else if s = "test_jaccard" then .ok (.call .testJaccard)
      else if s = "test_chebyshev" then .ok (.call .testChebyshev)
      else .error .unknownMetric

/-- The string-metric names the dispatch recognizes after lowercasing,
grouped as in the source `elif` chain. -/
def namedLower : List String :=
  ["euclidean", "euclid", "eu", "e"] ++ ["cityblock", "cblock", "cb", "c"] ++
  ["hamming", "hamm", "ha", "h"] ++ ["jaccard", "jacc", "ja", "j"] ++
  ["chebyshev", "cheby", "cheb", "ch"] ++ ["minkowski", "mi", "m"] ++
  ["seuclidean", "se", "s"] ++ ["cosine_old", "cos_old"] ++ ["cosine", "cos"] ++
  ["correlation", "co"] ++ ["stub_mahalanobis"]

/-- The names compared against the original (non-lowercased) string. -/
def namedExact : List String :=
  ["test_euclidean", "test_seuclidean", "mahalanobis", "test_cityblock",
   "test_minkowski", "test_cosine", "test_correlation", "test_hamming",
   "test_jaccard", "test_chebyshev"]

theorem pdist_unknown_metric (rows : List (List ℚ)) (s : String) (p : ℚ)
    (hL : pyLower s ∉ namedLower) (hE : s ∉ namedExact) :
    pdist (.m2 rows) (.str s) p = .error .unknownMetric := by
  simp only [namedLower, List.mem_append] at hL
  push_neg at hL
  obtain ⟨⟨⟨⟨⟨⟨⟨⟨⟨⟨hA, hB⟩, hC⟩, hD⟩, hE2⟩, hF⟩, hG⟩, hH⟩, hI⟩, hJ⟩, hK⟩ := hL
  simp only [namedExact, List.mem_cons, List.not_mem_nil, or_false] at hE
  push_neg at hE
  obtain ⟨e1, e2, e3, e4, e5, e6, e7, e8, e9, e10⟩ := hE
  simp only [pdist]
  rw [if_neg hA, if_neg hB, if_neg hC, if_neg hD, if_neg hE2, if_neg hF,
    if_neg hG, if_neg hH, if_neg hI, if_neg hJ, if_neg hK, if_neg e1,
    if_neg e2, if_neg e3, if_neg e4, if_neg e5, if_neg e6, if_neg e7,
    if_neg e8, if_neg e9, if_neg e10]

theorem pairList_eq_nil {m : ℕ} (hm : m < 2) : pairList m = [] := by
  interval_cases m <;> rfl

theorem pdistF_length (X : List (List ℚ)) (f : List ℚ → List ℚ → ℚ) :
    (pdistF X f).length = X.length * (X.length - 1) / 2 := by
  unfold pdistF
  rw [List.length_map, pairList_length]

theorem pdistF_get {X : List (List ℚ)} {i j : ℕ} (f : List ℚ → List ℚ → ℚ)
    (hij : i < j) (hj : j < X.length) :
    (pdistF X f).get? (kIdx X.length i j) = some (f (X.getD i []) (X.getD j [])) := by
  unfold pdistF
  rw [List.get?_map, pairList_get hij hj]
  rfl

/-- Keys of `cpy_non_euclid_methods` (line 44). -/
def nonEuclidNames : List String := ["single", "complete", "average", "weighted"]

/-- Keys of `cpy_euclid_methods` (line 45). -/
def euclidNames : List String := ["centroid", "median", "ward"]

/-- Integer codes of the method dictionaries (lines 44-45). -/
def methodCode (l : List (String × ℕ)) (m : String) : ℕ := (l.lookup m).getD 0

def cpy_non_euclid_methods : List (String × ℕ) :=
  [("single", 0), ("complete", 1), ("average", 2), ("weighted", 6)]

def cpy_euclid_methods : List (String × ℕ) :=
  [("centroid", 3), ("median", 4), ("ward", 5)]

/-- The clustering computation `linkage` hands to the C layer on success
(`linkage_wrap` / `linkage_euclid_wrap`, absent from the sources). -/
inductive LinkCall where
  | nonEuclidFromVec (y : List ℚ) (d : ℕ) (code : ℕ)
  | nonEuclidFromObs (dm : PdistRes) (n : ℕ) (code : ℕ)
  | euclidFromObs (dm : PdistRes) (m n : ℕ) (code : ℕ)
  deriving Repr

/-- `linkage(y, method, metric)` (lines 59-174): validation and dispatch.
An `.error` result means the function raises before any clustering
computation is invoked. -/
def linkage (y : PyArr) (method : String) (metric : String) :
    Except PyErr LinkCall :=
  match y with
  | .v1 v =>
    -- lines 144-152
    let d := ceilSqrt (2 * v.length)
    if d * (d - 1) / 2 ≠ v.length then .error .binomial
    else if method ∉ nonEuclidNames then .error .vectorMethodInvalid
    else .ok (.nonEuclidFromVec v d (methodCode cpy_non_euclid_methods method))
  | .m2 X =>
    -- lines 153-173
    if method ∉ nonEuclidNames ∧ method ∉ euclidNames then .error .invalidMethod
    else if method ∈ nonEuclidNames then
      (pdist (.m2 X) (.str metric) 2).map (fun dm =>
        .nonEuclidFromObs dm X.length (methodCode cpy_non_euclid_methods method))
    else if metric ≠ "euclidean" then .error .methodNeedsEuclidean
    else
      (pdist (.m2 X) (.str metric) 2).map (fun dm =>
        .euclidFromObs dm (shape1 X) X.length (methodCode cpy_euclid_methods method))

/-- One row `[left_id, right_id, dist, count]` of a linkage matrix `Z`
(doubles; the 2-D/4-column shape checks of `totree` and `cophenet` are
carried by this type). -/
abbrev ZRow := ℚ × ℚ × ℚ × ℚ

/-- The cluster-tree node class `cnode` (lines 176-183).  Python allows the
children to be set independently, but `totree` only ever passes both or
neither, so the embedding uses a leaf and an internal constructor. -/
inductive cnode where
  | leafy (id : ℚ) (dist : ℚ) (count : ℚ)
  | node (id : ℚ) (left : cnode) (right : cnode) (dist : ℚ) (count : ℚ)
  deriving DecidableEq, Repr

def cnode.count : cnode → ℚ
  | .leafy _ _ c => c
  | .node _ _ _ _ c => c

def cnode.dist : cnode → ℚ
  | .leafy _ d _ => d
  | .node _ _ _ d _ => d

/-- `cnode(id)`: the `__init__` defaults `left=None, right=None, dist=0,
count=1`. -/
def cnodeDefault (id : ℚ) : cnode := .leafy id 0 1

/-- `cnode(id, left, right)` as called on line 249: `dist` and `count` are
not passed and keep the `__init__` defaults `0` and `1`. -/
def cnodeJoin (id : ℚ) (l r : cnode) : cnode := .node id l r 0 1

/-- Every node of the tree has `dist = 0` and `count = 1`. -/
def allInv : cnode → Bool
  | .leafy _ d c => d == 0 && c == 1
  | .node _ l r d c => ((d == 0 && c == 1) && allInv l) && allInv r

/-- numpy truth value of a 1-D boolean array: `False` when empty, the sole
element when the size is one, and a `ValueError` otherwise. -/
def pyTruthB : List Bool → Except PyErr Bool
  | [] => .ok false
  | [b] => .ok b
  | _ :: _ :: _ => .error .ambiguousTruth

/-- Python `int()` truncation toward zero of a double. -/
def pyInt (q : ℚ) : ℚ := ((q.num.tdiv (q.den : ℤ) : ℤ) : ℚ)

/-- Dictionary with numeric keys as an association list: lookup takes the
first match; inserts prepend. -/
def dlook (k : ℚ) : List (ℚ × cnode) → Option cnode
  | [] => none
  | e :: t => if k = e.1 then some e.2 else dlook k t

/-- The leaf-construction loop `d[i] = cnode(i)` (lines 237-238). -/
def leafDict (n : ℕ) : List (ℚ × cnode) :=
  (List.range n).map (fun i => ((i : ℚ), cnodeDefault (i : ℚ)))

/-- The merge loop of `totree` (lines 242-252): for each remaining row,
the two (identical, both on column 0) forward-reference tests of lines
245-248, the child lookups of line 249, the construction of the new node
with defaulted `dist`/`count`, the re-lookups with `int()` of line 250 and
the count comparison against the new node's own `count`, then the insert
`d[n + i] = nd`. -/
def mergeLoop (n : ℕ) : List ZRow → ℕ → List (ℚ × cnode) → Option cnode →
    Except PyErr (Option cnode)
  | [], _, _, nd => .ok nd
  | r :: rest, i, d, _ =>
    if r.1 < ((i + n : ℕ) : ℚ) then .error .fwdRef
    else if r.1 < ((i + n : ℕ) : ℚ) then .error .fwdRef
    else
      match dlook r.1 d with
      | none => .error .keyError
      | some l =>
        match dlook r.2.1 d with
        | none => .error .keyError
        | some rc =>
          match dlook (pyInt r.1) d with
          | none => .error .keyError
          | some li =>
            match dlook (pyInt r.2.1) d with
            | none => .error .keyError
            | some ri =>
              if li.count + ri.count ≠ (cnodeJoin ((n + i : ℕ) : ℚ) l rc).count then
                .error .badCount
              else mergeLoop n rest (i + 1)
                ((((n + i : ℕ) : ℚ), cnodeJoin ((n + i : ℕ) : ℚ) l rc) :: d)
                (some (cnodeJoin ((n + i : ℕ) : ℚ) l rc))

/-- The validation block of `totree` run before any node is constructed
(lines 219-234).  Line 223 compares the `scipy.unique` array elementwise
with the scalar `2*(n-1)` and uses the resulting boolean array as a truth
value, so numpy semantics apply (`pyTruthB`); the same happens for the
distance and count sign checks of lines 230 and 233. -/
def totreeChecks (Z : List ZRow) : Except PyErr Unit :=
  let n := Z.length + 1
  let ids := Z.flatMap (fun r => [r.1, r.2.1])
  match pyTruthB (((ids.insertionSort (· ≤ ·)).dedup).map
      (fun q => decide (q ≠ ((2 * (n - 1) : ℕ) : ℚ)))) with
  | .error e => .error e
  | .ok true => .error .corruptUnique
  | .ok false =>
    if 0 < ids.countP (fun q => decide ((((2 * n - 1 : ℕ) : ℚ)) ≤ q)) then
      .error .idxOutOfBounds
    else if 0 < ids.countP (fun q => decide (q < 0)) then .error .idxNegative
    else
      match pyTruthB (Z.map (fun r => decide (r.2.2.1 < 0))) with
      | .error e => .error e
      | .ok true => .error .negDist
      | .ok false =>
        match pyTruthB (Z.map (fun r => decide (r.2.2.2 < 0))) with
        | .error e => .error e
        | .ok true => .error .negCount
        | .ok false => .ok ()

/-- `totree(Z)` (lines 185-254): validation, leaf construction, merge loop.
The dtype/rank/column checks of lines 203-212 are carried by the `ZRow`
type.  With no rows (`n = 1`) the loop never runs and Python returns the
initial `nd = None`. -/
def totree (Z : List ZRow) : Except PyErr (Option cnode) :=
  (totreeChecks Z).bind (fun _ =>
    mergeLoop (Z.length + 1) Z 0 (leafDict (Z.length + 1)) none)

theorem dlook_mem {k : ℚ} {d : List (ℚ × cnode)} {v : cnode}
    (h : dlook k d = some v) : ∃ e ∈ d, e.2 = v := by
  induction d with
  | nil => exact absurd h (by simp [dlook])
  | cons e t ih =>
    unfold dlook at h
    by_cases hk : k = e.1
    · rw [if_pos hk] at h
      exact ⟨e, List.mem_cons_self e t, Option.some.inj h⟩
    · rw [if_neg hk] at h
      obtain ⟨e2, he2, hv⟩ := ih h
      exact ⟨e2, List.mem_cons_of_mem e he2, hv⟩

/-- Invariant of the merge loop: if every node in the dictionary, and the
running `nd`, carries only `__init__` defaults throughout its subtree,
then so does any tree the loop returns — `Z`'s third and fourth columns
are never written into a node. -/
theorem mergeLoop_inv :
    ∀ (rows : List ZRow) (n i : ℕ) (d : List (ℚ × cnode)) (nd : Option cnode)
      (r : cnode),
      (∀ e ∈ d, allInv e.2 = true) →
      (∀ t, nd = some t → allInv t = true) →
      mergeLoop n rows i d nd = .ok (some r) → allInv r = true := by
  intro rows
  induction rows with
  | nil =>
    intro n i d nd r _ hnd h
    have h2 : nd = some r := by
      have h3 : (Except.ok nd : Except PyErr (Option cnode)) = .ok (some r) := h
      exact Except.ok.inj h3
    exact hnd r h2
  | cons row rest ih =>
    intro n i d nd r hd hnd h
    rw [mergeLoop] at h
    split at h
    · exact absurd h (by simp)
    · split at h
      · exact absurd h (by simp)
      · rename_i l hl
        split at h
        · exact absurd h (by simp)
        · rename_i rc hrc
          split at h
          · exact absurd h (by simp)
          · rename_i li hli
            split at h
            · exact absurd h (by simp)
            · rename_i ri hri
              split at h
              · exact absurd h (by simp)
              · have hlinv : allInv l = true := by
                  obtain ⟨e, he, hv⟩ := dlook_mem hl
                  rw [← hv]
                  exact hd e he
                have hrcinv : allInv rc = true := by
                  obtain ⟨e, he, hv⟩ := dlook_mem hrc
                  rw [← hv]
                  exact hd e he
                have hjoin : allInv (cnodeJoin ((n + i : ℕ) : ℚ) l rc) = true := by
                  simp [cnodeJoin, allInv, hlinv, hrcinv]
                apply ih n (i + 1) _ _ r _ _ h
                · intro e he
                  rcases List.mem_cons.mp he with he1 | he2
                  · rw [he1]
                    exact hjoin
                  · exact hd e he2
                · intro t ht
                  rw [← Option.some.inj ht]
                  exact hjoin

/-- numpy `mean` of a 1-D array. -/
def meanQ (l : List ℚ) : ℚ := l.sum / (l.length : ℚ)

/-- Centered sum of squares (the variance term of the Pearson
denominator, lines 618-623). -/
def centeredSS (l : List ℚ) : ℚ := (l.map (fun t => (t - meanQ l) ^ 2)).sum

/-- Square root on `ℚ`, exact on perfect rational squares.  It stands in
for the double `sqrt` of line 624; every claim touching `cophenet`
concerns only whether an exception is raised, never this value. -/
def qSqrt (q : ℚ) : ℚ := ((Nat.sqrt q.num.toNat : ℚ)) / ((Nat.sqrt q.den : ℚ))

/-- The Pearson quotient of lines 616-624.  With a zero variance term the
denominator is zero; no exception arises (numpy float division yields a
non-finite value, modelled by total `ℚ` division). -/
def pearsonQ (zz Y : List ℚ) : ℚ :=
  let Yy := Y.map (fun t => t - meanQ Y)
  let Zz := zz.map (fun t => t - meanQ zz)
  ((Yy.zip Zz).map (fun q => q.1 * q.2)).sum / qSqrt (centeredSS Y * centeredSS zz)

/-- Array index of an integral nonnegative double id. -/
def pyIdx (q : ℚ) : ℕ := q.num.toNat

/-- Member lists of each cluster id, built row by row: leaves first, then
each row's cluster is the union of its two children's members. -/
def membAcc : List ZRow → List (List ℕ) → List (List ℕ)
  | [], acc => acc
  | r :: rest, acc =>
    membAcc rest (acc ++ [(acc.getD (pyIdx r.1) []) ++ (acc.getD (pyIdx r.2.1) [])])

/-- Modelled from the spec: the C function
`_cluster_wrap.cophenetic_distances_wrap(Z, zz, n)` is not in the sources.
Per the spec, the cophenetic distance of a pair of original observations
is the merge distance recorded on the first (hence smallest) cluster of
`Z` containing both, emitted in canonical pair order. -/
def cophenetic_distances (Z : List ZRow) : List ℚ :=
  let n := Z.length + 1
  let ml := membAcc Z ((List.range n).map (fun i => [i]))
  (pairList n).map (fun pq =>
    match (List.range (n - 1)).find? (fun i =>
        (ml.getD (n + i) []).contains pq.1 &&
        (ml.getD (n + i) []).contains pq.2) with
    | some i => (Z.getD i ((0 : ℚ), (0 : ℚ), (0 : ℚ), (0 : ℚ))).2.2.1
    | none => 0)

/-- `cophenet(Z, Y)` (lines 552-627), two-argument form.  The only raise
reachable on this path with well-shaped arguments is the `Y` length check
of line 613; the correlation of line 624 is computed unconditionally. -/
def cophenet2 (Z : List ZRow) (Y : List ℚ) : Except PyErr ℚ :=
  let n := Z.length + 1
  let zz := cophenetic_distances Z
  if Y.length ≠ n * (n - 1) / 2 then .error .sizeMismatchY
  else .ok (pearsonQ zz Y)

/-- C1: claimed, pdist(X, 'jaccard') returns the jaccard distances
`|{k : u_k ≠ v_k}| / |{k : u_k ≠ 0 or v_k ≠ 0}|`.  In the code the
'jaccard' branch calls the same `pdist_hamming_wrap` as the 'hamming'
branch (line 465 versus line 458), contradicting pdist's own docstring:
on `X = [[0,1],[0,2]]` the returned value is the hamming distance `1/2`
while the documented jaccard formula gives `1`. -/
theorem C1_jaccard_dispatch_bug :
    pdist (.m2 [[(0 : ℚ), 1], [0, 2]]) (.str "jaccard") 2 = .ok (.vec [1/2]) ∧
    specJaccard [(0 : ℚ), 1] [0, 2] = 1 ∧ ((1 : ℚ)/2) ≠ 1 := by
  refine ⟨rfl, ?_, by norm_num⟩
  norm_num [specJaccard, List.countP_cons]

/-- C2: claimed, `totree` succeeds on the count check exactly when every
row's count equals the sum of its children's counts.  In the code the check
of line 250 compares against `nd.count`, which is the freshly constructed
node's `__init__` default `1` (line 249 passes no count), never against
`Z[i,3]`; moreover a perfectly consistent `Z = [[0,1,1,2]]` dies earlier
with the `ValueError` from the array-as-boolean `unique` check of line 223.
Second conjunct: the loop body, reached with two count-1 children and the
correct count `2` in column 3, still raises. -/
theorem C2_count_check_bug :
    totree [((0 : ℚ), 1, 1, 2)] = .error .ambiguousTruth ∧
    mergeLoop 2 [((2 : ℚ), 3, 1, 2)] 0
      [((2 : ℚ), cnodeDefault 0), ((3 : ℚ), cnodeDefault 1)] none
      = .error .badCount := by
  refine ⟨by decide, ?_⟩
  rw [mergeLoop]
  rw [if_neg (by norm_num : ¬ (2 : ℚ) < ((0 + 2 : ℕ) : ℚ)),
    if_neg (by norm_num : ¬ (2 : ℚ) < ((0 + 2 : ℕ) : ℚ))]
  have h1 : dlook (2 : ℚ) [((2 : ℚ), cnodeDefault 0), ((3 : ℚ), cnodeDefault 1)]
      = some (cnodeDefault 0) := rfl
  have h2 : dlook (3 : ℚ) [((2 : ℚ), cnodeDefault 0), ((3 : ℚ), cnodeDefault 1)]
      = some (cnodeDefault 1) := rfl
  have h3 : pyInt (2 : ℚ) = (2 : ℚ) := rfl
  have h4 : pyInt (3 : ℚ) = (3 : ℚ) := rfl
  rw [h3, h4] at *
  simp only [h1, h2]
  rw [if_pos (by norm_num [cnodeDefault, cnodeJoin, cnode.count])]

/-- C3 (amended): squareform-of-squareform is the identity on every valid
condensed vector (length `d(d-1)/2`, `d ≥ 2`), and on every symmetric
zero-diagonal square matrix whose dimension is not 1; the 1-by-1 zero
matrix is the sole exception (see the counterexample). -/
theorem C3_squareform_involution :
    (∀ (d : ℕ) (v : List ℚ), 2 ≤ d → v.length = d * (d - 1) / 2 →
      (squareform (.v1 v) "no" true).bind (fun Y => squareform Y "no" true)
        = .ok (.v1 v)) ∧
    (∀ M : List (List ℚ), M.length ≠ 1 →
      (∀ r ∈ M, r.length = M.length) →
      (∀ i j, i < M.length → j < M.length → matGet M i j = matGet M j i) →
      (∀ i, i < M.length → matGet M i i = 0) →
      (squareform (.m2 M) "no" true).bind (fun Y => squareform Y "no" true)
        = .ok (.m2 M)) :=
  ⟨fun _ v hd hv => squareform_roundtrip_from_vec v hd hv,
   fun M h1 h2 h3 h4 => squareform_roundtrip_from_mat M h1 h2 h3 h4⟩

/-- C3 counterexample: the 1-by-1 zero matrix is symmetric with zero
diagonal, yet its round trip yields the 0-by-0 matrix, not itself: the
matrix maps to the empty condensed vector, which maps back to dimension
`int(ceil(sqrt(0))) = 0`. -/
theorem C3_one_by_one_counterexample :
    (squareform (.m2 [[(0 : ℚ)]]) "no" true).bind (fun Y => squareform Y "no" true)
      = .ok (.m2 []) ∧ PyArr.m2 [] ≠ PyArr.m2 [[(0 : ℚ)]] :=
  ⟨by decide, by decide⟩

/-- C3 witness: the round trips at `v = [2,3,5]` (`d = 3`) and at the
2-by-2 matrix `[[0,2],[2,0]]`. -/
theorem C3_witness :
    (squareform (.v1 [(2 : ℚ), 3, 5]) "no" true).bind
      (fun Y => squareform Y "no" true) = .ok (.v1 [(2 : ℚ), 3, 5]) ∧
    (squareform (.m2 [[(0 : ℚ), 2], [2, 0]]) "no" true).bind
      (fun Y => squareform Y "no" true) = .ok (.m2 [[(0 : ℚ), 2], [2, 0]]) := by
  constructor
  · exact C3_squareform_involution.1 3 [(2 : ℚ), 3, 5] (by norm_num) rfl
  · refine C3_squareform_involution.2 [[(0 : ℚ), 2], [2, 0]] (by decide) ?_ ?_ ?_
    · intro r hr
      fin_cases hr <;> rfl
    · intro i j hi hj
      have hi2 : i < 2 := by simpa using hi
      have hj2 : j < 2 := by simpa using hj
      interval_cases i <;> interval_cases j <;> decide
    · intro i hi
      have hi2 : i < 2 := by simpa using hi
      interval_cases i <;> decide

/-- C4: claimed, `totree` fails on forward references and passes the check
on well-ordered Z.  The check of lines 245-248 is `if fi < i + n`, the
negation of the documented condition, and tests column 0 twice.  First
conjunct: `Z = [[2,2,1,2]]` references cluster `2 = n+0` inside its own
defining row — a forward reference — yet sails through the check and dies
later with a `KeyError` at `d[2.0]`.  Second conjunct: the loop on the
perfectly valid row `[0,1,1,2]` (two leaf references) raises the
forward-reference error. -/
theorem C4_fwdref_check_bug :
    totree [((2 : ℚ), 2, 1, 2)] = .error .keyError ∧
    mergeLoop 2 [((0 : ℚ), 1, 1, 2)] 0 (leafDict 2) none = .error .fwdRef :=
  ⟨by decide, by decide⟩

/-- C5: claimed, a Z with an out-of-range or re-used id is rejected before
any node is built.  `Z = [[2,2,5,3]]` (n = 2) re-uses id `2`, which also
lies outside `[0, 2n-2) = [0,2)`; yet the whole validation block passes:
the `unique` check passes because the single distinct value equals
`2(n-1) = 2`, and the bounds check only rejects ids `≥ 2n-1 = 3`.  The
failure only happens afterwards, as a `KeyError` in the merge loop, after
the two leaves have been constructed. -/
theorem C5_validation_bug :
    totreeChecks [((2 : ℚ), 2, 5, 3)] = .ok () ∧
    totree [((2 : ℚ), 2, 5, 3)] = .error .keyError :=
  ⟨by decide, by decide⟩

/-- C6 (amended): `cophenet(Z, Y)` raises exactly when `Y`'s length
differs from `n(n-1)/2` with `n = Z.rows + 1`; a zero variance term does
not raise — the Pearson quotient of line 624 is computed unconditionally
(numpy float division by zero warns and yields a non-finite value instead
of raising). -/
theorem C6_cophenet_fail_iff (Z : List ZRow) (Y : List ℚ) :
    (cophenet2 Z Y).isOk = true ↔ Y.length = (Z.length + 1) * Z.length / 2 := by
  have hn : (Z.length + 1) * (Z.length + 1 - 1) / 2
      = (Z.length + 1) * Z.length / 2 := by norm_num
  simp only [cophenet2, hn]
  split
  · rename_i hcond
    constructor
    · intro hfalse
      simp [Except.isOk, Except.toBool] at hfalse
    · intro hlen
      exact absurd hlen hcond
  · rename_i hcond
    push_neg at hcond
    exact ⟨fun _ => hcond, fun _ => rfl⟩

/-- C6 counterexample: `Z = [[0,1,1,2]]`, `Y = [1]` has the right length
`1 = n(n-1)/2` but zero variance; the claim says `cophenet` fails, the code
returns a value (here the `0/0` quotient of the model). -/
theorem C6_zero_variance_no_failure :
    centeredSS [(1 : ℚ)] = 0 ∧
    cophenet2 [((0 : ℚ), 1, 1, 2)] [(1 : ℚ)] = .ok 0 := by
  constructor
  · norm_num [centeredSS, meanQ]
  · have hz : cophenetic_distances [((0 : ℚ), 1, 1, 2)] = [1] := rfl
    simp only [cophenet2, hz]
    rw [if_neg (by norm_num)]
    congr 1
    norm_num [pearsonQ, meanQ]

/-- C7 (amended): `pdist` fails on 1-D input and on an unrecognized metric
name, but it does NOT fail when `m < 2`: the pair loop is empty and the
empty condensed vector is returned. -/
theorem C7_pdist_failures :
    (∀ (v : List ℚ) (m : PyMetric) (p : ℚ),
      pdist (.v1 v) m p = .error .notArray2D) ∧
    (∀ (X : List (List ℚ)) (f : List ℚ → List ℚ → ℚ) (p : ℚ), X.length < 2 →
      pdist (.m2 X) (.func f) p = .ok (.vec [])) ∧
    (∀ (X : List (List ℚ)) (s : String) (p : ℚ),
      pyLower s ∉ namedLower → s ∉ namedExact →
      pdist (.m2 X) (.str s) p = .error .unknownMetric) := by
  refine ⟨fun _ _ _ => rfl, ?_, fun X s p hL hE => pdist_unknown_metric X s p hL hE⟩
  intro X f p hm
  simp only [pdist]
  have h : pdistF X f = [] := by
    unfold pdistF
    rw [pairList_eq_nil hm]
    rfl
  rw [h]

/-- C7 counterexample: a 1-row matrix with a custom metric; the claim says
`pdist` raises for `m < 2`, the code returns the empty vector. -/
theorem C7_single_row_no_error :
    pdist (.m2 [[(1 : ℚ), 2]]) (.func (fun _ _ => 37)) 2 = .ok (.vec []) := rfl

/-- C7 witness: the three conjuncts at concrete inputs. -/
theorem C7_witness :
    pdist (.v1 [(1 : ℚ)]) (.str "euclidean") 2 = .error .notArray2D ∧
    pdist (.m2 [[(1 : ℚ), 2]]) (.func (fun u v => u.sum - v.sum)) 2
      = .ok (.vec []) ∧
    pdist (.m2 [[(1 : ℚ), 2], [3, 4]]) (.str "foo") 2 = .error .unknownMetric :=
  ⟨C7_pdist_failures.1 [(1 : ℚ)] (.str "euclidean") 2,
   C7_pdist_failures.2.1 [[(1 : ℚ), 2]] (fun u v => u.sum - v.sum) 2 (by decide),
   C7_pdist_failures.2.2 [[(1 : ℚ), 2], [3, 4]] "foo" 2 (by decide) (by decide)⟩

/-- C8: for each of centroid, median, ward: `linkage` fails on a 1-D
condensed vector (either the binomial check or the vector-method check of
line 148 raises), and fails on an observation matrix with any metric other
than the exact string 'euclidean' (line 165), in both cases returning an
error before any `LinkCall` — i.e. before any clustering computation — is
produced. -/
theorem C8_euclid_methods_guard :
    ∀ method ∈ euclidNames,
      (∀ (v : List ℚ) (metric : String),
        (linkage (.v1 v) method metric).isOk = false) ∧
      (∀ (X : List (List ℚ)) (metric : String), metric ≠ "euclidean" →
        (linkage (.m2 X) method metric).isOk = false) := by
  intro method hm
  have hcases : method = "centroid" ∨ method = "median" ∨ method = "ward" := by
    simpa [euclidNames] using hm
  constructor
  · intro v metric
    rcases hcases with h | h | h <;> subst h <;>
      · simp only [linkage]
        split
        · rfl
        · rw [if_pos (by decide)]
          rfl
  · intro X metric hme
    rcases hcases with h | h | h <;> subst h <;>
      · simp only [linkage]
        rw [if_neg (by decide), if_neg (by decide), if_pos hme]
        rfl

/-- C8 witness: method 'ward' with a valid 3-entry condensed vector, and
with a 2-point observation matrix under metric 'cityblock'. -/
theorem C8_witness :
    (linkage (.v1 [(1 : ℚ), 2, 3]) "ward" "euclidean").isOk = false ∧
    (linkage (.m2 [[(1 : ℚ)], [2]]) "ward" "cityblock").isOk = false := by
  have h := C8_euclid_methods_guard "ward" (by decide)
  exact ⟨h.1 [(1 : ℚ), 2, 3] "euclidean", h.2 [[(1 : ℚ)], [2]] "cityblock" (by decide)⟩

/-- C9: the custom-function path of `pdist` produces exactly the map of
`f` over the canonical pair enumeration (i ascending outer, j ascending
inner): the vector has length `m(m-1)/2`, the entry at
`k(i,j) = i*m - i*(i+1)/2 + (j-i-1)` is `f(X[i], X[j])` unchanged, and
each unordered pair occurs exactly once in the enumeration. -/
theorem C9_custom_metric_indexing (X : List (List ℚ))
    (f : List ℚ → List ℚ → ℚ) (i j : ℕ) (hij : i < j) (hj : j < X.length) :
    pdist (.m2 X) (.func f) 2 = .ok (.vec (pdistF X f)) ∧
    (pdistF X f).length = X.length * (X.length - 1) / 2 ∧
    (pdistF X f).get? (kIdx X.length i j)
      = some (f (X.getD i []) (X.getD j [])) ∧
    (i, j) ∈ pairList X.length ∧ (pairList X.length).Nodup :=
  ⟨rfl, pdistF_length X f, pdistF_get f hij hj,
   mem_pairList.mpr ⟨hij, hj⟩, pairList_nodup _⟩

/-- C9 witness: three points, pair (0,2) stored at `k(0,2) = 1` with the
value of the supplied function. -/
theorem C9_witness :
    0 < 2 ∧ 2 < 3 ∧
    (pdistF [[(0 : ℚ), 1], [2, 3], [4, 5]] (fun u v => u.sum + v.sum)).get?
      (kIdx 3 0 2) = some 10 := by
  refine ⟨by norm_num, by norm_num, ?_⟩
  have h := (C9_custom_metric_indexing [[(0 : ℚ), 1], [2, 3], [4, 5]]
    (fun u v => u.sum + v.sum) 0 2 (by norm_num) (by norm_num)).2.2.1
  simp only [List.length_cons, List.length_nil] at h
  rw [h]
  norm_num

/-- C10: every node `totree` ever constructs carries the `__init__`
defaults `dist = 0`, `count = 1` — `Z`'s third and fourth columns are
never stored: the leaves of lines 237-238, the internal nodes of line 249
(which passes only id and children), and, by the loop invariant, every
node of any tree the merge loop returns.  (For `n ≥ 2` `totree` in fact
always raises, so the successful-call reading of the claim has no other
content.) -/
theorem C10_nodes_keep_defaults :
    (∀ n, ∀ e ∈ leafDict n, allInv e.2 = true) ∧
    (∀ (id : ℚ) (l r : cnode), allInv l = true → allInv r = true →
      allInv (cnodeJoin id l r) = true ∧ (cnodeJoin id l r).dist = 0 ∧
      (cnodeJoin id l r).count = 1) ∧
    (∀ (n : ℕ) (rows : List ZRow) (i : ℕ) (d : List (ℚ × cnode))
        (nd : Option cnode) (r : cnode),
      (∀ e ∈ d, allInv e.2 = true) →
      (∀ t, nd = some t → allInv t = true) →
      mergeLoop n rows i d nd = .ok (some r) → allInv r = true) := by
  refine ⟨?_, ?_, fun n rows i d nd r hd hnd h => mergeLoop_inv rows n i d nd r hd hnd h⟩
  · intro n e he
    unfold leafDict at he
    obtain ⟨k, _, rfl⟩ := List.mem_map.mp he
    rfl
  · intro id l r hl hr
    refine ⟨?_, rfl, rfl⟩
    simp [cnodeJoin, allInv, hl, hr]

/-- C10 witness: a leaf from the dictionary, an internal construction,
and a run of the merge loop. -/
theorem C10_witness :
    allInv (cnodeDefault 0) = true ∧
    allInv (cnodeJoin 7 (cnodeDefault 0) (cnodeDefault 1)) = true ∧
    allInv (cnodeDefault 5) = true := by
  refine ⟨?_, ?_, ?_⟩
  · exact C10_nodes_keep_defaults.1 1 ((0 : ℚ), cnodeDefault 0) (by decide)
  · exact (C10_nodes_keep_defaults.2.1 7 (cnodeDefault 0) (cnodeDefault 1) rfl rfl).1
  · exact C10_nodes_keep_defaults.2.2 1 [] 0 [] (some (cnodeDefault 5))
      (cnodeDefault 5) (fun e he => absurd he (List.not_mem_nil e))
      (fun t ht => by rw [← Option.some.inj ht]; rfl) rfl

end Cluster
